import Mathlib

/-!
Verification development for the pytorch-yolov3 repository
(`darknet.py`, `main.py`).

The definitions below are shallow embeddings of the repository's functions:

* Python list indexing (`pyGetElem`) with its negative-index wrapping;
* the channel bookkeeping of `blocks2modules` in `darknet.py` (the part of
  the graph builder that determines each layer's output channel count and
  whose failures abort model construction);
* the line chunking and block parsing of `parse_config` in `darknet.py`;
* the float-consumption discipline of `Darknet.load_weights`;
* the tensor-shape pipeline of `YOLOLayer.forward`;
* the greedy per-class non-maximum suppression of `main.py`
  (`_non_max_suppression` and `non_max_suppression`).

Exceptions raised by the Python code (IndexError, TypeError, AssertionError,
RuntimeError, KeyError, and so on) are modelled uniformly: a fallible
operation returns an `Option`, with `none` meaning the Python code raises.
-/

/-- Python `l[k]` on a list: a non-negative index is used directly, a
negative index `k` means `len(l) + k`; any index outside the list raises
IndexError, modelled as `none`. -/
def pyGetElem {α : Type} (l : List α) (k : Int) : Option α :=
  let j : Int := if k < 0 then k + l.length else k
  if j < 0 then none else l.get? j.toNat

/-- Python `l[k]` where the stored elements are themselves optional channel
counts (`None` in Python): fetching raises IndexError out of range, and an
arithmetic use of a fetched `None` raises TypeError; both are `none`. -/
def pyGetFlat (l : List (Option Nat)) (k : Int) : Option Nat :=
  (pyGetElem l k).bind id

/-- The fields of a parsed config block that the channel bookkeeping of
`blocks2modules` (darknet.py, lines 211-310) reads.  `convolutional` carries
its `filters` value, `route` its `layers` list (still relative/negative at
build time, since `Darknet.__init__` rewrites them only after
`blocks2modules` has returned), `shortcut` its `from` offset.  Kernel sizes,
strides and activations do not affect channel counts and are omitted. -/
inductive Block where
  | convolutional (filters : Nat)
  | maxpool
  | route (layers : List Int)
  | shortcut (fromIdx : Int)
  | upsample
  | yolo
deriving DecidableEq

/-- The builder state threaded through the loop of `blocks2modules`:
`prev` is `prev_layer_out_channels`, `curr` is `curr_out_channels`
(initially Python `None`), `outList` is `out_channels_list`. -/
structure BuildState where
  prev : Option Nat
  curr : Option Nat
  outList : List (Option Nat)
deriving DecidableEq

/-- End-of-iteration bookkeeping of `blocks2modules`: append the current
output channel count to `out_channels_list` and copy it into
`prev_layer_out_channels`.  Whenever a branch assigns the Python variable
`out_channels` it also assigns `curr_out_channels`, so after the append the
three agree. -/
def b2mPush (st : BuildState) (v : Option Nat) : BuildState :=
  ⟨v, v, st.outList ++ [v]⟩

/-- One iteration of the `for i, block in enumerate(blocks)` loop of
`blocks2modules`, restricted to its channel bookkeeping.  The current block
index `i` equals `st.outList.length`.

* `convolutional` constructs `Conv2d(in_channels=prev, ...)`, which raises
  if `prev` is Python `None`; the new count is the block's `filters`.
* `maxpool`, `upsample` and `yolo` leave `curr_out_channels` untouched.
* `route` sums `out_channels_list[layer_idx]` over the (possibly negative,
  Python-indexed) references; an out-of-range reference raises IndexError
  and a referenced `None` makes `sum` raise TypeError.
* `shortcut` evaluates `assert out_channels == out_channels_list[i + from]`.
  The Python variable `out_channels` is the stale value left by the last
  `convolutional`/`route` branch, which always equals `curr_out_channels`;
  if no such branch has run it is unbound and the statement raises
  NameError.  A failed lookup raises IndexError and a failed comparison
  raises AssertionError. -/
def b2mStep (st : BuildState) (b : Block) : Option BuildState :=
  match b with
  | .convolutional filters =>
      match st.prev with
      | none => none
      | some _ => some (b2mPush st (some filters))
  | .maxpool => some (b2mPush st st.curr)
  | .upsample => some (b2mPush st st.curr)
  | .yolo => some (b2mPush st st.curr)
  | .route refs =>
      match refs.mapM (pyGetFlat st.outList) with
      | none => none
      | some cs => some (b2mPush st (some cs.sum))
  | .shortcut f =>
      match st.curr with
      | none => none
      | some c =>
          match pyGetElem st.outList ((st.outList.length : Int) + f) with
          | none => none
          | some e => if e = some c then some (b2mPush st (some c)) else none

/-- The loop of `blocks2modules` over the block list. -/
def blocks2modulesAux (st : BuildState) : List Block → Option BuildState
  | [] => some st
  | b :: bs => (b2mStep st b).bind (fun st' => blocks2modulesAux st' bs)

/-- Channel bookkeeping of `blocks2modules`: starting from
`prev_layer_out_channels = net_info["channels"]` and
`curr_out_channels = None`, returns the final `out_channels_list`, or `none`
if any iteration raises. -/
def blocks2modulesChannels (netChannels : Nat) (blocks : List Block) :
    Option (List (Option Nat)) :=
  (blocks2modulesAux ⟨some netChannels, none, []⟩ blocks).map (·.outList)

/-- The absolute layer index a route/shortcut reference denotes according to
the specification: a negative reference is relative to the current index. -/
def resolveAbs (i : Nat) (r : Int) : Int :=
  if r < 0 then (i : Int) + r else r

lemma b2mPush_outList (st : BuildState) (v : Option Nat) :
    (b2mPush st v).outList = st.outList ++ [v] := rfl

lemma b2mPush_curr (st : BuildState) (v : Option Nat) :
    (b2mPush st v).curr = v := rfl

lemma b2mStep_outList {st st' : BuildState} {b : Block}
    (h : b2mStep st b = some st') : st'.outList = st.outList ++ [st'.curr] := by
  cases b with
  | convolutional filters =>
      simp only [b2mStep] at h
      cases hp : st.prev with
      | none => rw [hp] at h; exact absurd h (by simp)
      | some p => rw [hp] at h; simp at h; subst h; rfl
  | maxpool => simp only [b2mStep] at h; simp at h; subst h; rfl
  | upsample => simp only [b2mStep] at h; simp at h; subst h; rfl
  | yolo => simp only [b2mStep] at h; simp at h; subst h; rfl
  | route refs =>
      simp only [b2mStep] at h
      cases hm : refs.mapM (pyGetFlat st.outList) with
      | none => rw [hm] at h; exact absurd h (by simp)
      | some cs => rw [hm] at h; simp at h; subst h; rfl
  | shortcut f =>
      simp only [b2mStep] at h
      cases hc : st.curr with
      | none => rw [hc] at h; exact absurd h (by simp)
      | some c =>
          rw [hc] at h
          cases he : pyGetElem st.outList ((st.outList.length : Int) + f) with
          | none => rw [he] at h; exact absurd h (by simp)
          | some e =>
              rw [he] at h
              by_cases hec : e = some c
              · simp [hec] at h; subst h; rfl
              · simp [hec] at h

lemma blocks2modulesAux_append (st : BuildState) (xs ys : List Block) :
    blocks2modulesAux st (xs ++ ys) =
      (blocks2modulesAux st xs).bind (fun st' => blocks2modulesAux st' ys) := by
  induction xs generalizing st with
  | nil => simp [blocks2modulesAux]
  | cons b bs ih =>
      simp only [List.cons_append, blocks2modulesAux]
      cases b2mStep st b with
      | none => simp
      | some st' => simp [ih st']

lemma blocks2modulesAux_prefix {st final : BuildState} {bs : List Block}
    (h : blocks2modulesAux st bs = some final) :
    ∃ tail, final.outList = st.outList ++ tail := by
  induction bs generalizing st with
  | nil =>
      simp [blocks2modulesAux] at h
      exact ⟨[], by simp [h]⟩
  | cons b rest ih =>
      simp only [blocks2modulesAux] at h
      cases hs : b2mStep st b with
      | none => rw [hs] at h; exact absurd h (by simp)
      | some st' =>
          rw [hs] at h
          simp only [Option.some_bind] at h
          obtain ⟨tail, htail⟩ := ih h
          refine ⟨st'.curr :: tail, ?_⟩
          rw [htail, b2mStep_outList hs]
          simp

lemma blocks2modulesAux_length {st final : BuildState} {bs : List Block}
    (h : blocks2modulesAux st bs = some final) :
    final.outList.length = st.outList.length + bs.length := by
  induction bs generalizing st with
  | nil => simp [blocks2modulesAux] at h; simp [h]
  | cons b rest ih =>
      simp only [blocks2modulesAux] at h
      cases hs : b2mStep st b with
      | none => rw [hs] at h; exact absurd h (by simp)
      | some st' =>
          rw [hs] at h
          simp only [Option.some_bind] at h
          have := ih h
          rw [this, b2mStep_outList hs]
          simp
          omega

/-- If the whole build loop succeeds, then for every block index the loop
reached that block with the prefix state, stepped through it successfully,
and recorded the step's output channel count at that index of the final
`out_channels_list`. -/
lemma blocks2modulesAux_step_of_get {st final : BuildState} {bs : List Block}
    {i : Nat} {b : Block}
    (h : blocks2modulesAux st bs = some final) (hget : bs.get? i = some b) :
    ∃ sti sti', blocks2modulesAux st (bs.take i) = some sti ∧
      b2mStep sti b = some sti' ∧
      sti.outList.length = st.outList.length + i ∧
      sti.outList = final.outList.take (st.outList.length + i) ∧
      final.outList.get? (st.outList.length + i) = some sti'.curr := by
  have hi : i < bs.length := by
    by_contra hcon
    rw [List.get?_eq_none.mpr (by omega)] at hget
    exact absurd hget (by simp)
  have hsplit : bs = bs.take i ++ bs.drop i := (List.take_append_drop i bs).symm
  have hdrop : bs.drop i = b :: bs.drop (i + 1) := by
    have := List.get?_eq_some.mp hget
    obtain ⟨hlt, hval⟩ := this
    rw [List.drop_eq_get_cons hlt, hval]
  rw [hsplit, blocks2modulesAux_append] at h
  cases hpre : blocks2modulesAux st (bs.take i) with
  | none => rw [hpre] at h; exact absurd h (by simp)
  | some sti =>
      rw [hpre] at h
      simp only [Option.some_bind] at h
      rw [hdrop] at h
      simp only [blocks2modulesAux] at h
      cases hstep : b2mStep sti b with
      | none => rw [hstep] at h; exact absurd h (by simp)
      | some sti' =>
          rw [hstep] at h
          simp only [Option.some_bind] at h
          have hlen : sti.outList.length = st.outList.length + i := by
            have := blocks2modulesAux_length hpre
            rw [this]
            simp [List.length_take]
            omega
          obtain ⟨tail, htail⟩ := blocks2modulesAux_prefix h
          have hstepout := b2mStep_outList hstep
          refine ⟨sti, sti', rfl, hstep, hlen, ?_, ?_⟩
          · rw [htail, hstepout, ← hlen, List.append_assoc]
            exact (List.take_left ..).symm
          · rw [htail, hstepout, ← hlen, List.append_assoc,
              List.get?_append_right (by omega)]
            simp

lemma pyGetElem_nonneg {α : Type} (l : List α) (k : Int) (hk : 0 ≤ k) :
    pyGetElem l k = l.get? k.toNat := by
  unfold pyGetElem
  rw [if_neg (by omega)]
  rw [if_neg (by omega)]

lemma pyGetElem_nonneg_oob {α : Type} (l : List α) (k : Int) (hk : 0 ≤ k)
    (hlen : (l.length : Int) ≤ k) : pyGetElem l k = none := by
  rw [pyGetElem_nonneg l k hk]
  exact List.get?_eq_none.mpr (by omega)

lemma mapM_some_forall {g : Int → Option Nat} :
    ∀ {l : List Int} {cs : List Nat}, l.mapM g = some cs →
      ∀ r ∈ l, ∃ c, g r = some c := by
  intro l
  induction l with
  | nil => intro cs _ r hr; exact absurd hr (by simp)
  | cons a as ih =>
      intro cs hm r hr
      rw [List.mapM_cons] at hm
      cases hg : g a with
      | none => rw [hg] at hm; simp at hm
      | some c =>
          rw [hg] at hm
          cases hrest : as.mapM g with
          | none => rw [hrest] at hm; simp at hm
          | some cs' =>
              rcases List.mem_cons.mp hr with h | h
              · exact ⟨c, h ▸ hg⟩
              · exact ih hrest r h

/-- A successful `pyGetFlat` lookup is a lookup of a defined channel count at
a valid absolute earlier index: the resolved index is in `[0, len)` and the
stored entry at that index is not Python `None`. -/
lemma pyGetFlat_spec {l : List (Option Nat)} {r : Int} {c : Nat}
    (h : pyGetFlat l r = some c) :
    0 ≤ resolveAbs l.length r ∧ resolveAbs l.length r < (l.length : Int) ∧
      l.get? (resolveAbs l.length r).toNat = some (some c) := by
  unfold pyGetFlat pyGetElem at h
  by_cases hr : r < 0
  · simp only [if_pos hr] at h
    by_cases hj : r + (l.length : Int) < 0
    · rw [if_pos hj] at h; simp at h
    · rw [if_neg hj] at h
      cases hg : l.get? (r + (l.length : Int)).toNat with
      | none => rw [hg] at h; simp at h
      | some e =>
          rw [hg] at h
          simp only [Option.some_bind, id] at h
          subst h
          have hlt : (r + (l.length : Int)).toNat < l.length :=
            (List.get?_eq_some.mp hg).1
          have habs : resolveAbs l.length r = r + l.length := by
            unfold resolveAbs; rw [if_pos hr]; omega
          refine ⟨by omega, by omega, ?_⟩
          rw [habs]
          exact hg
  · simp only [if_neg hr] at h
    cases hg : l.get? r.toNat with
    | none => rw [hg] at h; simp at h
    | some e =>
        rw [hg] at h
        simp only [Option.some_bind, id] at h
        subst h
        have hlt : r.toNat < l.length := (List.get?_eq_some.mp hg).1
        have habs : resolveAbs l.length r = r := by
          unfold resolveAbs; rw [if_neg hr]
        refine ⟨by omega, by omega, ?_⟩
        rw [habs]
        exact hg

/-- After at least one loop iteration, the last entry of
`out_channels_list` is the current `curr_out_channels`. -/
lemma blocks2modulesAux_last {st final : BuildState} {bs : List Block}
    (h : blocks2modulesAux st bs = some final) (hne : bs ≠ []) :
    final.outList.get? (final.outList.length - 1) = some final.curr := by
  induction bs generalizing st with
  | nil => exact absurd rfl hne
  | cons b rest ih =>
      simp only [blocks2modulesAux] at h
      cases hs : b2mStep st b with
      | none => rw [hs] at h; exact absurd h (by simp)
      | some st' =>
          rw [hs] at h
          simp only [Option.some_bind] at h
          cases rest with
          | nil =>
              simp [blocks2modulesAux] at h
              subst h
              rw [b2mStep_outList hs]
              simp
          | cons b' rest' => exact ih h (by simp)

lemma blocks2modulesChannels_some {netChannels : Nat} {blocks : List Block}
    {lst : List (Option Nat)}
    (h : blocks2modulesChannels netChannels blocks = some lst) :
    ∃ final, blocks2modulesAux ⟨some netChannels, none, []⟩ blocks = some final ∧
      final.outList = lst := by
  unfold blocks2modulesChannels at h
  cases hf : blocks2modulesAux ⟨some netChannels, none, []⟩ blocks with
  | none => rw [hf] at h; simp at h
  | some final =>
      rw [hf] at h
      simp at h
      exact ⟨final, rfl, h⟩

/-- C1.  For every layer-spec list in which a route layer's references
resolve to valid earlier layers (equivalently here: in which the build
succeeds), the graph builder assigns the route layer an output channel
count equal to the sum of the output channel counts of the referenced
layers, fetched in the order the references are listed: the fetch list `cs`
is the pointwise image of `refs`, and each reference resolves to an
absolute index in `[0, i)` holding the fetched (defined) count. -/
theorem route_out_channels
    (netChannels : Nat) (blocks : List Block) (lst : List (Option Nat))
    (i : Nat) (refs : List Int)
    (hbuild : blocks2modulesChannels netChannels blocks = some lst)
    (hblock : blocks.get? i = some (.route refs)) :
    ∃ cs : List Nat,
      refs.mapM (pyGetFlat (lst.take i)) = some cs ∧
      lst.get? i = some (some cs.sum) ∧
      ∀ r ∈ refs, ∃ c,
        pyGetFlat (lst.take i) r = some c ∧
        0 ≤ resolveAbs i r ∧ resolveAbs i r < (i : Int) ∧
        lst.get? (resolveAbs i r).toNat = some (some c) := by
  obtain ⟨final, hf, hout⟩ := blocks2modulesChannels_some hbuild
  obtain ⟨sti, sti', hpre, hstep, hlen, htake, hgeti⟩ :=
    blocks2modulesAux_step_of_get hf hblock
  simp only [List.length_nil, Nat.zero_add] at hlen htake hgeti
  have hi : i < blocks.length := by
    by_contra hcon
    rw [List.get?_eq_none.mpr (by omega)] at hblock
    exact absurd hblock (by simp)
  have hsti_take : sti.outList = lst.take i := by rw [htake, hout]
  simp only [b2mStep] at hstep
  cases hm : refs.mapM (pyGetFlat sti.outList) with
  | none => rw [hm] at hstep; exact absurd hstep (by simp)
  | some cs =>
      rw [hm] at hstep
      simp only [Option.some.injEq] at hstep
      have hcurr : sti'.curr = some cs.sum := by
        rw [← hstep]; rfl
      refine ⟨cs, by rw [← hsti_take]; exact hm, ?_, ?_⟩
      · rw [← hout, hgeti, hcurr]
      · intro r hr
        obtain ⟨c, hc⟩ := mapM_some_forall hm r hr
        have hlen_take : sti.outList.length = i := hlen
        have hspec := pyGetFlat_spec hc
        rw [hlen_take] at hspec
        obtain ⟨h0, hlt, hget⟩ := hspec
        refine ⟨c, by rw [← hsti_take]; exact hc, h0, hlt, ?_⟩
        rw [hsti_take] at hget
        rw [← hget]
        exact (List.get?_take (by omega)).symm

/-- C1 witness: a concrete successful build containing a route layer. -/
theorem route_out_channels_witness :
    ∃ cs : List Nat,
      [(-1 : Int), 0].mapM (pyGetFlat ([some 8, some 16, some 24].take 2)) = some cs ∧
      [some 8, some 16, some 24].get? 2 = some (some cs.sum) ∧
      ∀ r ∈ [(-1 : Int), 0], ∃ c,
        pyGetFlat ([some 8, some 16, some 24].take 2) r = some c ∧
        0 ≤ resolveAbs 2 r ∧ resolveAbs 2 r < (2 : Int) ∧
        [some 8, some 16, some 24].get? (resolveAbs 2 r).toNat = some (some c) :=
  route_out_channels 3 [.convolutional 8, .convolutional 16, .route [-1, 0]]
    [some 8, some 16, some 24] 2 [-1, 0] (by decide) (by decide)

/-- C2 counterexample.  For the config of four convolutional layers with
filter counts [8, 16, 8, 4] followed by `route layers = -1, -4`, the builder
does NOT assign the route layer 20 output channels: reference `-1` is the
layer with 4 channels and `-4` the layer with 8 channels, so the sum the
code computes is 12, not 16 + 4 = 20. -/
theorem route_example_not_twenty :
    (blocks2modulesChannels 3
        [.convolutional 8, .convolutional 16, .convolutional 8,
         .convolutional 4, .route [-1, -4]]).bind (fun l => l.get? 4) ≠
      some (some 20) := by decide

/-- C2 amended.  The same config gives the route layer 4 + 8 = 12 output
channels (and the four convolutional layers keep [8, 16, 8, 4]). -/
theorem route_example_is_twelve :
    blocks2modulesChannels 3
        [.convolutional 8, .convolutional 16, .convolutional 8,
         .convolutional 4, .route [-1, -4]] =
      some [some 8, some 16, some 8, some 4, some 12] := by decide

/-- C3 counterexample.  A shortcut whose reference resolves to a negative
absolute index (here layer 1 with `from = -2`, absolute index -1) does not
make the builder fail: Python's negative list indexing silently wraps the
lookup onto a valid earlier layer and the build succeeds. -/
theorem shortcut_negative_abs_succeeds :
    resolveAbs 1 (-2) < 0 ∧
      blocks2modulesChannels 3 [.convolutional 8, .shortcut (-2)] =
        some [some 8, some 8] := by decide

/-- C3 amended.  A route reference resolving to an absolute index that is
negative or is at least the route layer's own index makes the build fail
(Python IndexError or TypeError, not a dedicated error class), and so does
a shortcut whose `from` offset is non-negative (absolute index at least the
layer's own index); but a shortcut whose resolved absolute index is
negative can succeed, per `shortcut_negative_abs_succeeds`. -/
theorem unresolved_reference_fails
    (netChannels : Nat) (blocks : List Block) (i : Nat) :
    (∀ refs, blocks.get? i = some (.route refs) →
        (∃ r ∈ refs, resolveAbs i r < 0 ∨ (i : Int) ≤ resolveAbs i r) →
        blocks2modulesChannels netChannels blocks = none) ∧
    (∀ f, blocks.get? i = some (.shortcut f) → 0 ≤ f →
        blocks2modulesChannels netChannels blocks = none) := by
  constructor
  · intro refs hblock hbad
    cases hb : blocks2modulesChannels netChannels blocks with
    | none => rfl
    | some lst =>
        exfalso
        obtain ⟨final, hf, hout⟩ := blocks2modulesChannels_some hb
        obtain ⟨sti, sti', hpre, hstep, hlen, htake, hgeti⟩ :=
          blocks2modulesAux_step_of_get hf hblock
        simp only [List.length_nil, Nat.zero_add] at hlen
        simp only [b2mStep] at hstep
        cases hm : refs.mapM (pyGetFlat sti.outList) with
        | none => rw [hm] at hstep; exact absurd hstep (by simp)
        | some cs =>
            obtain ⟨r, hr, hbadr⟩ := hbad
            obtain ⟨c, hc⟩ := mapM_some_forall hm r hr
            have hspec := pyGetFlat_spec hc
            rw [hlen] at hspec
            obtain ⟨h0, hlt, _⟩ := hspec
            rcases hbadr with hneg | hge
            · omega
            · omega
  · intro f hblock hf0
    cases hb : blocks2modulesChannels netChannels blocks with
    | none => rfl
    | some lst =>
        exfalso
        obtain ⟨final, hf, hout⟩ := blocks2modulesChannels_some hb
        obtain ⟨sti, sti', hpre, hstep, hlen, htake, hgeti⟩ :=
          blocks2modulesAux_step_of_get hf hblock
        simp only [List.length_nil, Nat.zero_add] at hlen
        simp only [b2mStep] at hstep
        cases hc : sti.curr with
        | none => rw [hc] at hstep; exact absurd hstep (by simp)
        | some c =>
            rw [hc] at hstep
            rw [pyGetElem_nonneg_oob sti.outList _ (by omega)
              (by rw [hlen]; omega)] at hstep
            exact absurd hstep (by simp)

/-- C3 witness: a route layer whose single reference is its own index makes
the build fail. -/
theorem unresolved_reference_fails_witness :
    blocks2modulesChannels 3 [.route [0]] = none :=
  (unresolved_reference_fails 3 [.route [0]] 0).1 [0] rfl
    ⟨0, by simp, Or.inr (by unfold resolveAbs; simp)⟩

/-- C4.  For a shortcut layer at index `i` whose `from` reference resolves
to a valid earlier layer (absolute index `i + f` in `[0, i)`) holding entry
`e`, and whose immediately preceding layer has the defined channel count
`c` (which is also `out_channels_list[i - 1]`): if `e` differs from `c`,
the whole build fails (the Python `assert` raises before any forward pass);
if `e` equals `c`, the shortcut's own step does not raise and records `c`
as the shortcut's output channel count. -/
theorem shortcut_channel_match
    (netChannels : Nat) (blocks : List Block) (i : Nat) (f : Int)
    (st : BuildState) (c : Nat) (e : Option Nat)
    (hpre : blocks2modulesAux ⟨some netChannels, none, []⟩ (blocks.take i) =
      some st)
    (hblock : blocks.get? i = some (.shortcut f))
    (hcurr : st.curr = some c)
    (hlo : 0 ≤ (i : Int) + f) (hhi : (i : Int) + f < (i : Int))
    (he : st.outList.get? ((i : Int) + f).toNat = some e) :
    st.outList.get? (i - 1) = some (some c) ∧
    (e ≠ some c → blocks2modulesChannels netChannels blocks = none) ∧
    (e = some c →
      b2mStep st (.shortcut f) = some (b2mPush st (some c)) ∧
      ∀ lst, blocks2modulesChannels netChannels blocks = some lst →
        lst.get? i = some (some c)) := by
  have hi : i < blocks.length := by
    by_contra hcon
    rw [List.get?_eq_none.mpr (by omega)] at hblock
    exact absurd hblock (by simp)
  have hlen : st.outList.length = i := by
    have := blocks2modulesAux_length hpre
    simp only [List.length_nil, Nat.zero_add] at this
    rw [this, List.length_take]
    omega
  have hstep_eq : b2mStep st (.shortcut f) =
      if e = some c then some (b2mPush st (some c)) else none := by
    simp only [b2mStep]
    rw [hcurr]
    rw [show ((st.outList.length : Int) + f) = (i : Int) + f by rw [hlen]]
    rw [pyGetElem_nonneg st.outList _ hlo, he]
  refine ⟨?_, ?_, ?_⟩
  · have hne : blocks.take i ≠ [] := by
      intro hnil
      rcases List.take_eq_nil_iff.mp hnil with h0 | h0
      · omega
      · rw [h0] at hi; simp at hi
    have hlast := blocks2modulesAux_last hpre hne
    rw [hlen, hcurr] at hlast
    exact hlast
  · intro hne
    cases hb : blocks2modulesChannels netChannels blocks with
    | none => rfl
    | some lst =>
        exfalso
        obtain ⟨final, hf, hout⟩ := blocks2modulesChannels_some hb
        obtain ⟨sti, sti', hpre2, hstep, _, _, _⟩ :=
          blocks2modulesAux_step_of_get hf hblock
        have hsti : sti = st := by
          rw [hpre] at hpre2
          exact (Option.some.injEq _ _ ▸ hpre2).symm
        rw [hsti, hstep_eq, if_neg hne] at hstep
        exact absurd hstep (by simp)
  · intro heq
    refine ⟨by rw [hstep_eq, if_pos heq], ?_⟩
    intro lst hb
    obtain ⟨final, hf, hout⟩ := blocks2modulesChannels_some hb
    obtain ⟨sti, sti', hpre2, hstep, _, _, hgeti⟩ :=
      blocks2modulesAux_step_of_get hf hblock
    simp only [List.length_nil, Nat.zero_add] at hgeti
    have hsti : sti = st := by
      rw [hpre] at hpre2
      exact (Option.some.injEq _ _ ▸ hpre2).symm
    rw [hsti, hstep_eq, if_pos heq] at hstep
    have hcurr' : sti'.curr = some c := by
      have := (Option.some.injEq _ _ ▸ hstep)
      rw [← this]
      rfl
    rw [← hout, hgeti, hcurr']

/-- C4 witness: a concrete matching shortcut (two 8-channel convolutional
layers followed by `shortcut from = -2`). -/
theorem shortcut_channel_match_witness :
    (⟨some 8, some 8, [some 8, some 8]⟩ : BuildState).outList.get?
        (2 - 1) = some (some 8) ∧
    (some 8 ≠ some 8 → blocks2modulesChannels 3
        [.convolutional 8, .convolutional 8, .shortcut (-2)] = none) ∧
    (some 8 = some 8 →
      b2mStep ⟨some 8, some 8, [some 8, some 8]⟩ (.shortcut (-2)) =
        some (b2mPush ⟨some 8, some 8, [some 8, some 8]⟩ (some 8)) ∧
      ∀ lst, blocks2modulesChannels 3
          [.convolutional 8, .convolutional 8, .shortcut (-2)] = some lst →
        lst.get? 2 = some (some 8)) :=
  shortcut_channel_match 3 [.convolutional 8, .convolutional 8, .shortcut (-2)]
    2 (-2) ⟨some 8, some 8, [some 8, some 8]⟩ 8 (some 8)
    (by decide) (by decide) (by decide) (by decide) (by decide) (by decide)

/-- The dictionary literal returned by `Darknet.forward` (darknet.py, lines
382-385): it has exactly the keys "bbox_xywhs" and "max_class_idx", holding
the concatenated decoded boxes and class indices. -/
def darknet_forward_output (bboxes maxIdx : Nat) : List (String × Nat) :=
  [("bbox_xywhs", bboxes), ("max_class_idx", maxIdx)]

/-- The keys `do_inference` (main.py, lines 342-344) reads from the
dictionary returned by `net.forward`, in order of access. -/
def do_inference_read_keys : List String :=
  ["bbox_xywh", "class_prob", "class_idx"]

/-- C10.  The forward pass returns a dictionary with exactly the keys
"bbox_xywhs" and "max_class_idx", while `do_inference` reads the keys
"bbox_xywh", "class_prob" and "class_idx"; none of the read keys is
present, so the first read (`out["bbox_xywh"]`) raises KeyError on every
invocation that gets past the forward pass. -/
theorem forward_keys_mismatch (bboxes maxIdx : Nat) :
    (darknet_forward_output bboxes maxIdx).map Prod.fst =
        ["bbox_xywhs", "max_class_idx"] ∧
    ∀ k ∈ do_inference_read_keys,
      (darknet_forward_output bboxes maxIdx).lookup k = none := by
  refine ⟨rfl, ?_⟩
  intro k hk
  fin_cases hk <;> rfl

/-- torch `Tensor.squeeze()` at shape level: drops every dimension of
size 1. -/
def squeezeShape (s : List Nat) : List Nat := s.filter (fun d => d ≠ 1)

/-- torch `permute(1, 0, 2, 3)` at shape level: demands exactly four
dimensions, otherwise the call raises. -/
def permute1023 : List Nat → Option (List Nat)
  | [a, b, c, d] => some [b, a, c, d]
  | _ => none

/-- torch `reshape(4, -1)` at shape level: the inferred dimension demands a
positive element count divisible by 4. -/
def reshape4Neg1 (s : List Nat) : Option (List Nat) :=
  if s.prod ≠ 0 ∧ s.prod % 4 = 0 then some [4, s.prod / 4] else none

/-- torch `.T` at shape level on the two-dimensional tensor produced by
`reshape(4, -1)`. -/
def transpose2 : List Nat → Option (List Nat)
  | [a, b] => some [b, a]
  | _ => none

/-- Shape behaviour of `YOLOLayer.forward` (darknet.py, lines 47-121) on an
input of shape (batch, anchors*(5+classes), h, w).

* `num_classes` is introspected as `int(p / num_anchors) - 5`;
* the initial `reshape` demands the element counts to agree;
* `torch.max` over the class axis raises if there are zero classes;
* the box tensor of shape (n, A, 4, h, w) goes through
  `squeeze() . permute(1, 0, 2, 3) . reshape(4, -1) . T`;
* `max_class_score` is flattened to n*A*h*w rows and `torch.cat(..., dim=1)`
  demands the two row counts to agree. -/
def yoloForwardShape (numAnchors : Nat) (s : List Nat) : Option (List Nat) :=
  match s with
  | [n, p, h, w] =>
      if numAnchors = 0 then none
      else
        let c5 := p / numAnchors
        if n * p * h * w ≠ n * numAnchors * c5 * h * w then none
        else if c5 < 6 then none
        else
          match permute1023 (squeezeShape [n, numAnchors, min 4 c5, h, w]) with
          | none => none
          | some ps =>
              match reshape4Neg1 ps with
              | none => none
              | some rs =>
                  match transpose2 rs with
                  | none => none
                  | some ts =>
                      match ts with
                      | [m, cols] =>
                          if m = n * numAnchors * h * w then some [m, cols + 1]
                          else none
                      | _ => none
  | _ => none

/-- C9 counterexample.  A batched detection-head input (batch 2, three
anchors, one class, a 2 by 2 grid) makes `YOLOLayer.forward` raise: after
`squeeze()` the box tensor still has five dimensions and
`permute(1, 0, 2, 3)` fails, so no per-image candidate list is produced and
the batch dimension is certainly not preserved. -/
theorem yolo_batch_two_fails : yoloForwardShape 3 [2, 18, 2, 2] = none := by
  decide

/-- C9 amended.  For a batch-1 detection-head input whose anchor count,
grid height and grid width all exceed 1 and with at least one class, the
decoder flattens the anchor-by-grid volume into a single candidate list of
shape (anchors*h*w, 5): the batch dimension is dropped, not preserved.  For
the same head shape with any batch size of at least 2 the forward raises
(the squeezed box tensor has five dimensions and `permute(1, 0, 2, 3)`
fails), so no batched output exists at all. -/
theorem yolo_flatten_single_batch
    (A C h w : Nat) (hA : 2 ≤ A) (hh : 2 ≤ h) (hw : 2 ≤ w) :
    yoloForwardShape A [1, A * (C + 6), h, w] = some [A * h * w, 5] ∧
    ∀ n, 2 ≤ n → yoloForwardShape A [n, A * (C + 6), h, w] = none := by
  have hc5 : A * (C + 6) / A = C + 6 := Nat.mul_div_cancel_left _ (by omega)
  have hsq1 : squeezeShape [1, A, 4, h, w] = [A, 4, h, w] := by
    unfold squeezeShape
    rw [List.filter_cons_of_neg (by simp)]
    rw [List.filter_cons_of_pos (by simp; omega)]
    rw [List.filter_cons_of_pos (by simp)]
    rw [List.filter_cons_of_pos (by simp; omega)]
    rw [List.filter_cons_of_pos (by simp; omega)]
    rfl
  constructor
  · simp only [yoloForwardShape]
    rw [if_neg (by omega)]
    simp only [hc5]
    rw [if_neg (by push_neg; ring)]
    rw [if_neg (by omega)]
    have hmin : min 4 (C + 6) = 4 := by omega
    rw [hmin, hsq1]
    simp only [permute1023]
    unfold reshape4Neg1
    simp only [List.prod_cons, List.prod_nil]
    rw [if_pos ?_]
    · simp only [transpose2]
      have hdiv : 4 * (A * (h * (w * 1))) / 4 = A * h * w := by
        rw [Nat.mul_div_cancel_left _ (by omega)]
        ring
      rw [hdiv]
      rw [if_pos (by ring)]
    · constructor
      · have : 0 < 4 * (A * (h * (w * 1))) := by positivity
        omega
      · exact Nat.mul_mod_right 4 _
  · intro n hn
    have hsqn : squeezeShape [n, A, 4, h, w] = [n, A, 4, h, w] := by
      unfold squeezeShape
      rw [List.filter_cons_of_pos (by simp; omega)]
      rw [List.filter_cons_of_pos (by simp; omega)]
      rw [List.filter_cons_of_pos (by simp)]
      rw [List.filter_cons_of_pos (by simp; omega)]
      rw [List.filter_cons_of_pos (by simp; omega)]
      rfl
    simp only [yoloForwardShape]
    rw [if_neg (by omega)]
    simp only [hc5]
    rw [if_neg (by push_neg; ring)]
    rw [if_neg (by omega)]
    have hmin : min 4 (C + 6) = 4 := by omega
    rw [hmin, hsqn]
    rfl

/-- C9 witness for the amended statement: three anchors on a 2 by 2 grid
with one class; batch 1 flattens to a 12 by 5 candidate list, batch 2
raises. -/
theorem yolo_flatten_single_batch_witness :
    yoloForwardShape 3 [1, 3 * (1 + 6), 2, 2] = some [3 * 2 * 2, 5] ∧
    yoloForwardShape 3 [2, 3 * (1 + 6), 2, 2] = none := by
  have h := yolo_flatten_single_batch 3 1 2 2 (by omega) (by omega) (by omega)
  exact ⟨h.1, h.2 2 (by omega)⟩

/-- C10 witness: the first key `do_inference` reads is absent from a
concrete forward-pass dictionary. -/
theorem forward_keys_mismatch_witness :
    (darknet_forward_output 0 0).lookup ("bbox_xywh") = none :=
  (forward_keys_mismatch 0 0).2 ("bbox_xywh") (by simp [do_inference_read_keys])

/-- Python `str.isspace()`: true exactly for a non-empty string consisting
only of whitespace characters. -/
def pyIsSpace (s : List Char) : Bool := !s.isEmpty && s.all Char.isWhitespace

/-- Python `str.strip()`: drop whitespace from both ends. -/
def pyStrip (s : List Char) : List Char :=
  ((s.dropWhile Char.isWhitespace).reverse.dropWhile Char.isWhitespace).reverse

/-- Python `str.startswith(c)` for the one-character arguments
`parse_config` uses (`"#"` and `"["`). -/
def pyStartsWith (s : List Char) (c : Char) : Bool :=
  match s with
  | [] => false
  | a :: _ => a == c

/-- The line filter of `parse_config` (darknet.py, lines 138-141): drop
lines that are pure whitespace or start with `#`. -/
def keepLine (s : List Char) : Bool := !(pyIsSpace s || pyStartsWith s ('#'))

/-- The block chunking of `parse_config` (darknet.py, lines 146-154): the
original collects the indices of all `[`-starting lines and slices between
consecutive ones, so every line before the first header is dropped and each
chunk runs from its header up to the next.  This single accumulator pass
computes the same chunks. -/
def chunkBlocksAux : List (List Char) → Option (List (List Char)) →
    List (List (List Char))
  | [], none => []
  | [], some cur => [cur.reverse]
  | l :: ls, none =>
      if pyStartsWith l ('[') then chunkBlocksAux ls (some [l])
      else chunkBlocksAux ls none
  | l :: ls, some cur =>
      if pyStartsWith l ('[') then cur.reverse :: chunkBlocksAux ls (some [l])
      else chunkBlocksAux ls (some (l :: cur))

/-- The list of text blocks of the (already filtered and stripped) config
lines. -/
def chunkBlocks (lines : List (List Char)) : List (List (List Char)) :=
  chunkBlocksAux lines none

/-- A parsed config value.  Python `str2type` coerces to `int` when the
text parses as an integer; floats and plain strings are both kept as the
raw text here (`raw`), since nothing downstream that we verify
distinguishes them; comma-separated values become `list`s, and the
`anchors` regrouping makes lists of lists. -/
inductive CfgVal where
  | int (n : Int)
  | raw (s : List Char)
  | list (vs : List CfgVal)

/-- Decimal digit accumulator for `pyInt`. -/
def pyDigitsAux : List Char → Nat → Option Nat
  | [], acc => some acc
  | c :: cs, acc =>
      if c.isDigit then pyDigitsAux cs (acc * 10 + (c.toNat - ('0').toNat))
      else none

/-- Python `int(s)` on an already-stripped string: an optional sign
followed by at least one decimal digit; anything else raises ValueError. -/
def pyInt (s : List Char) : Option Int :=
  match s with
  | [] => none
  | ('-') :: rest =>
      if rest.isEmpty then none
      else (pyDigitsAux rest 0).map (fun n => -(n : Int))
  | ('+') :: rest =>
      if rest.isEmpty then none
      else (pyDigitsAux rest 0).map (fun n => (n : Int))
  | _ => (pyDigitsAux s 0).map (fun n => (n : Int))

/-- The `str2type` helper of `parse_config`: integer if possible, else the
raw text (covering both the float and the string fallback). -/
def str2type (s : List Char) : CfgVal :=
  match pyInt s with
  | some n => .int n
  | none => .raw s

/-- Python `str.split(c)` for a one-character separator. -/
def splitOnCharAux (c : Char) : List Char → List Char → List (List Char)
  | [], acc => [acc.reverse]
  | a :: rest, acc =>
      if a == c then acc.reverse :: splitOnCharAux c rest []
      else splitOnCharAux c rest (a :: acc)

/-- Python `str.split(c)`: split on every occurrence of `c`. -/
def splitOnChar (c : Char) (s : List Char) : List (List Char) :=
  splitOnCharAux c s []

/-- The `anchors` regrouping of `parse_config` (darknet.py, line 199):
`[val[i:i+2] for i in range(0, len(val), 2)]`. -/
def chunkPairs : List CfgVal → List CfgVal
  | [] => []
  | [a] => [.list [a]]
  | a :: b :: rest => .list [a, b] :: chunkPairs rest

/-- One `key = value` line of a block (darknet.py, lines 175-201):
`line.split("=")` must produce exactly two parts (otherwise the tuple
unpacking raises ValueError, modelled `none`); the value is coerced, a
comma-separated value becomes a list of coerced items, a scalar `layers`
value of a `route` block is wrapped into a one-element list, and an
`anchors` value is regrouped into pairs (`len` of a non-list raises). -/
def parseField (blockType : List Char) (line : List Char) :
    Option (List Char × CfgVal) :=
  match splitOnChar ('=') line with
  | [k, v] =>
      let key := pyStrip k
      let val : CfgVal :=
        if v.contains (',') then
          .list ((splitOnChar (',') v).map (fun item => str2type (pyStrip item)))
        else str2type (pyStrip v)
      let val : CfgVal :=
        if blockType = ("route".data) ∧ key = ("layers".data) then
          match val with
          | .int n => .list [.int n]
          | other => other
        else val
      if key = ("anchors".data) then
        match val with
        | .list vs => some (key, .list (chunkPairs vs))
        | _ => none
      else some (key, val)
  | _ => none

/-- A parsed block: its type (the header text between the brackets,
Python `line[1:-1]`) and its fields in file order. -/
structure CfgBlock where
  btype : List Char
  fields : List (List Char × CfgVal)

/-- Parse one chunked text block (darknet.py, lines 173-201). -/
def parseBlock (textBlock : List (List Char)) : Option CfgBlock :=
  match textBlock with
  | [] => none
  | header :: rest =>
      ((rest.mapM (parseField ((header.drop 1).dropLast))).map
        (fun fs => ⟨(header.drop 1).dropLast, fs⟩))

/-- The `net`-block split of `parse_config` (darknet.py, lines 203-206):
every block of type `net` overwrites `net_info`, all other blocks are
appended in order. -/
def splitNet (blocks : List CfgBlock) : List CfgBlock × Option CfgBlock :=
  blocks.foldl
    (fun acc b =>
      if b.btype = ("net".data) then (acc.1, some b) else (acc.1 ++ [b], acc.2))
    ([], none)

/-- `parse_config` (darknet.py, lines 124-208) over the raw lines of the
config file: filter out whitespace-only and comment lines, strip, chunk
into header-led blocks, parse each block, and split off the network info. -/
def parse_config (rawLines : List (List Char)) :
    Option (List CfgBlock × Option CfgBlock) :=
  ((chunkBlocks ((rawLines.filter keepLine).map pyStrip)).mapM parseBlock).map
    splitNet

lemma chunkBlocksAux_append_no_header (xs ys : List (List Char))
    (h : ∀ x ∈ xs, pyStartsWith x ('[') = false) :
    chunkBlocksAux (xs ++ ys) none = chunkBlocksAux ys none := by
  induction xs with
  | nil => rfl
  | cons x xs ih =>
      have hx : pyStartsWith x ('[') = false := h x (by simp)
      simp only [List.cons_append, chunkBlocksAux, hx, Bool.false_eq_true,
        if_false]
      exact ih (fun a ha => h a (by simp [ha]))

/-- C5 counterexample.  A `key=value` line before any block header does not
make the parser fail: `parse_config` succeeds and the stray line is
silently dropped (it lies before the first header index and is never
sliced into a block). -/
theorem stray_line_parses_without_error :
    parse_config [("key=1".data), ("[net]".data), ("width=2".data)] =
      some ([], some ⟨("net".data), [(("width".data), CfgVal.int 2)]⟩) := rfl

/-- C5 amended.  Lines appearing before any block header (after comment and
blank filtering) are silently ignored: parsing is exactly parsing of the
remainder, with no error and no trace of the stray lines. -/
theorem stray_lines_before_header_ignored
    (pre post : List (List Char))
    (h : ∀ l ∈ pre, keepLine l = true → pyStartsWith (pyStrip l) ('[') = false) :
    parse_config (pre ++ post) = parse_config post := by
  unfold parse_config chunkBlocks
  rw [List.filter_append, List.map_append]
  rw [chunkBlocksAux_append_no_header]
  intro x hx
  simp only [List.mem_map, List.mem_filter] at hx
  obtain ⟨l, ⟨hl, hkeep⟩, rfl⟩ := hx
  exact h l hl hkeep

/-- C5 witness: dropping a concrete stray `key=1` line. -/
theorem stray_lines_before_header_ignored_witness :
    parse_config ([("key=1".data)] ++ [("[net]".data), ("width=2".data)]) =
      parse_config [("[net]".data), ("width=2".data)] :=
  stray_lines_before_header_ignored [("key=1".data)]
    [("[net]".data), ("width=2".data)] (by decide)

/-- The shape data of one convolutional module that `Darknet.load_weights`
reads: input channels, output channels, kernel size, and whether the block
has batch normalization.  (`load_weights` tests `"batch_normalize" in block
and block["batch_normalize"]` while `blocks2modules` tests presence only;
the two agree for the configs modelled here, where the key is absent or
set to 1.)  Float values are uninterpreted by the loader, which only
slices and copies, so the blob is modelled as a list of opaque `Int`s. -/
structure ConvMeta where
  inC : Nat
  outC : Nat
  k : Nat
  bn : Bool
deriving DecidableEq

/-- The sizes, in float32 counts and in read order, of the parameter chunks
`load_weights` copies into one convolutional module (darknet.py, lines
406-448): with batch norm `bn_bias, bn_weight, bn_running_mean,
bn_running_var, conv_weight`; without batch norm `conv_bias, conv_weight`. -/
def chunkSizes (m : ConvMeta) : List Nat :=
  if m.bn then
    [m.outC, m.outC, m.outC, m.outC, m.outC * m.inC * m.k * m.k]
  else
    [m.outC, m.outC * m.inC * m.k * m.k]

/-- Total float32 count one convolutional module consumes. -/
def floatsNeeded (m : ConvMeta) : Nat := (chunkSizes m).sum

/-- Total float32 count a module list consumes; non-convolutional modules
(`none`) consume nothing. -/
def totalFloats (mods : List (Option ConvMeta)) : Nat :=
  ((mods.filterMap id).map floatsNeeded).sum

/-- Copy the successive parameter chunks of one convolutional module out of
the weight blob `w`, starting at pointer `p`.  A `weights[p:p+n]` slice is
permissive, but the following `view_as`/`copy_` raises when the slice is
shorter than the parameter tensor, so a chunk is copied exactly when
`p + n <= len(w)`; chunks copied before the failing one stay copied
(in-place mutation, no rollback). -/
def loadChunks (w : List Int) : List Nat → Nat → List (List Int) × Option Nat
  | [], p => ([], some p)
  | n :: ns, p =>
      if p + n ≤ w.length then
        let rest := loadChunks w ns (p + n)
        (((w.drop p).take n) :: rest.1, rest.2)
      else ([], none)

/-- The layer walk of `Darknet.load_weights` (darknet.py, lines 404-448):
each convolutional module copies its chunks and advances the pointer; a
raise aborts the walk, leaving every later module untouched (modelled as
`[]`, the state in which none of its chunks has been copied). -/
def loadWeightsAux (w : List Int) :
    List (Option ConvMeta) → Nat → List (List (List Int)) × Bool
  | [], _ => ([], true)
  | none :: ms, p =>
      let rest := loadWeightsAux w ms p
      ([] :: rest.1, rest.2)
  | some m :: ms, p =>
      match loadChunks w (chunkSizes m) p with
      | (chunks, some q) =>
          let rest := loadWeightsAux w ms q
          (chunks :: rest.1, rest.2)
      | (chunks, none) => (chunks :: ms.map (fun _ => []), false)

/-- `Darknet.load_weights`: walk the module list from pointer 0.  The first
component lists, per module, the parameter chunks copied into it; the
second is whether loading ran to completion (`false` models the raise when
the blob is exhausted).  Floats past the last consumed position are never
read. -/
def load_weights (mods : List (Option ConvMeta)) (w : List Int) :
    List (List (List Int)) × Bool :=
  loadWeightsAux w mods 0

lemma totalFloats_cons_none (ms : List (Option ConvMeta)) :
    totalFloats (none :: ms) = totalFloats ms := by
  simp [totalFloats, List.filterMap_cons]

lemma totalFloats_cons_some (m : ConvMeta) (ms : List (Option ConvMeta)) :
    totalFloats (some m :: ms) = floatsNeeded m + totalFloats ms := by
  simp [totalFloats, List.filterMap_cons]

lemma slice_append (w ext : List Int) (p n : Nat) (h : p + n ≤ w.length) :
    ((w ++ ext).drop p).take n = (w.drop p).take n := by
  rw [List.drop_append_of_le_length (by omega)]
  rw [List.take_append_of_le_length (by rw [List.length_drop]; omega)]

lemma loadChunks_fits {w : List Int} :
    ∀ {ns : List Nat} {p : Nat}, p + ns.sum ≤ w.length →
      (loadChunks w ns p).2 = some (p + ns.sum) := by
  intro ns
  induction ns with
  | nil => intro p _; simp [loadChunks]
  | cons n ns ih =>
      intro p h
      rw [List.sum_cons] at h
      simp only [loadChunks, if_pos (show p + n ≤ w.length by omega)]
      rw [ih (show p + n + ns.sum ≤ w.length by omega)]
      rw [List.sum_cons]
      congr 1
      omega

lemma loadChunks_fits_append {w ext : List Int} :
    ∀ {ns : List Nat} {p : Nat}, p + ns.sum ≤ w.length →
      loadChunks (w ++ ext) ns p = loadChunks w ns p := by
  intro ns
  induction ns with
  | nil => intro p _; rfl
  | cons n ns ih =>
      intro p h
      rw [List.sum_cons] at h
      have hfit : p + n ≤ w.length := by omega
      have hfit' : p + n ≤ (w ++ ext).length := by
        rw [List.length_append]; omega
      simp only [loadChunks, if_pos hfit, if_pos hfit']
      rw [ih (show p + n + ns.sum ≤ w.length by omega)]
      rw [slice_append w ext p n hfit]

lemma loadChunks_short {w : List Int} :
    ∀ {ns : List Nat} {p : Nat}, p ≤ w.length → w.length < p + ns.sum →
      (loadChunks w ns p).2 = none := by
  intro ns
  induction ns with
  | nil => intro p hp h; simp at h; omega
  | cons n ns ih =>
      intro p hp h
      rw [List.sum_cons] at h
      by_cases hfit : p + n ≤ w.length
      · simp only [loadChunks, if_pos hfit]
        exact ih hfit (by omega)
      · simp only [loadChunks, if_neg hfit]

lemma loadWeightsAux_enough {w : List Int} :
    ∀ {ms : List (Option ConvMeta)} {p : Nat},
      p + totalFloats ms ≤ w.length → (loadWeightsAux w ms p).2 = true := by
  intro ms
  induction ms with
  | nil => intro p _; rfl
  | cons m ms ih =>
      intro p h
      cases m with
      | none =>
          rw [totalFloats_cons_none] at h
          simp only [loadWeightsAux]
          exact ih h
      | some meta =>
          rw [totalFloats_cons_some] at h
          have hneed : floatsNeeded meta = (chunkSizes meta).sum := rfl
          have hfit : p + (chunkSizes meta).sum ≤ w.length := by omega
          cases hres : loadChunks w (chunkSizes meta) p with
          | mk chunks osnd =>
              have h2 : osnd = some (p + (chunkSizes meta).sum) := by
                have := loadChunks_fits hfit
                rw [hres] at this
                exact this
              subst h2
              simp only [loadWeightsAux, hres]
              exact ih (by omega)

lemma loadWeightsAux_short {w : List Int} :
    ∀ {ms : List (Option ConvMeta)} {p : Nat},
      p ≤ w.length → w.length < p + totalFloats ms →
      (loadWeightsAux w ms p).2 = false := by
  intro ms
  induction ms with
  | nil =>
      intro p hp h
      exfalso
      have h0 : totalFloats ([] : List (Option ConvMeta)) = 0 := rfl
      omega
  | cons m ms ih =>
      intro p hp h
      cases m with
      | none =>
          rw [totalFloats_cons_none] at h
          simp only [loadWeightsAux]
          exact ih hp h
      | some meta =>
          rw [totalFloats_cons_some] at h
          have hneed : floatsNeeded meta = (chunkSizes meta).sum := rfl
          by_cases hfit : p + (chunkSizes meta).sum ≤ w.length
          · cases hres : loadChunks w (chunkSizes meta) p with
            | mk chunks osnd =>
                have h2 : osnd = some (p + (chunkSizes meta).sum) := by
                  have := loadChunks_fits hfit
                  rw [hres] at this
                  exact this
                subst h2
                simp only [loadWeightsAux, hres]
                exact ih hfit (by omega)
          · cases hres : loadChunks w (chunkSizes meta) p with
            | mk chunks osnd =>
                have h2 : osnd = none := by
                  have := loadChunks_short hp
                    (show w.length < p + (chunkSizes meta).sum by omega)
                  rw [hres] at this
                  exact this
                subst h2
                simp only [loadWeightsAux, hres]

lemma loadWeightsAux_append_enough {w ext : List Int} :
    ∀ {ms : List (Option ConvMeta)} {p : Nat},
      p + totalFloats ms ≤ w.length →
      loadWeightsAux (w ++ ext) ms p = loadWeightsAux w ms p := by
  intro ms
  induction ms with
  | nil => intro p _; rfl
  | cons m ms ih =>
      intro p h
      cases m with
      | none =>
          rw [totalFloats_cons_none] at h
          simp only [loadWeightsAux]
          rw [ih h]
      | some meta =>
          rw [totalFloats_cons_some] at h
          have hneed : floatsNeeded meta = (chunkSizes meta).sum := rfl
          have hfit : p + (chunkSizes meta).sum ≤ w.length := by omega
          simp only [loadWeightsAux]
          rw [loadChunks_fits_append hfit]
          cases hres : loadChunks w (chunkSizes meta) p with
          | mk chunks osnd =>
              have h2 : osnd = some (p + (chunkSizes meta).sum) := by
                have := loadChunks_fits hfit
                rw [hres] at this
                exact this
              subst h2
              simp only [loadWeightsAux, hres]
              rw [ih (by omega)]

lemma loadWeightsAux_prefix_get {w ext : List Int} :
    ∀ {ms : List (Option ConvMeta)} {p i : Nat},
      p + totalFloats (ms.take (i + 1)) ≤ w.length →
      (loadWeightsAux w ms p).1.get? i = (loadWeightsAux (w ++ ext) ms p).1.get? i := by
  intro ms
  induction ms with
  | nil => intro p i _; rfl
  | cons m ms ih =>
      intro p i h
      rw [List.take_succ_cons] at h
      cases m with
      | none =>
          rw [totalFloats_cons_none] at h
          simp only [loadWeightsAux]
          cases i with
          | zero => rfl
          | succ j => exact ih h
      | some meta =>
          rw [totalFloats_cons_some] at h
          have hneed : floatsNeeded meta = (chunkSizes meta).sum := rfl
          have hfit : p + (chunkSizes meta).sum ≤ w.length := by omega
          cases hres : loadChunks w (chunkSizes meta) p with
          | mk chunks osnd =>
              have h2 : osnd = some (p + (chunkSizes meta).sum) := by
                have := loadChunks_fits hfit
                rw [hres] at this
                exact this
              subst h2
              have hres' : loadChunks (w ++ ext) (chunkSizes meta) p =
                  (chunks, some (p + (chunkSizes meta).sum)) := by
                rw [loadChunks_fits_append hfit, hres]
              simp only [loadWeightsAux, hres, hres']
              cases i with
              | zero => rfl
              | succ j => exact ih (by omega)

/-- C6.  If the weight blob holds at least as many floats as the model's
convolutional layers require, loading completes and appending extra
trailing floats changes nothing at all (they are silently ignored).  If
the blob is exhausted before all layers are populated, loading fails, and
every module whose cumulative requirement still fits in the blob holds
exactly the same (already applied) parameters as under any extension of
the blob - mutations already applied are kept, with no rollback. -/
theorem load_weights_exhaustion (mods : List (Option ConvMeta)) (w : List Int) :
    (totalFloats mods ≤ w.length →
      (load_weights mods w).2 = true ∧
      ∀ ext, load_weights mods (w ++ ext) = load_weights mods w) ∧
    (w.length < totalFloats mods →
      (load_weights mods w).2 = false ∧
      ∀ ext i, totalFloats (mods.take (i + 1)) ≤ w.length →
        (load_weights mods w).1.get? i =
          (load_weights mods (w ++ ext)).1.get? i) := by
  unfold load_weights
  constructor
  · intro h
    exact ⟨loadWeightsAux_enough (by omega),
      fun ext => loadWeightsAux_append_enough (by omega)⟩
  · intro h
    exact ⟨loadWeightsAux_short (Nat.zero_le _) (by omega),
      fun ext i hi => loadWeightsAux_prefix_get (by omega)⟩

/-- C6 witness: a 1x1x1 convolution without batch norm (2 floats needed)
loads from a 3-float blob and ignores an appended extra float; a
batch-normalized 2-channel convolution (24 floats needed) fails on the
same 3-float blob. -/
theorem load_weights_exhaustion_witness :
    (load_weights [some ⟨1, 1, 1, false⟩] [5, 7, 9]).2 = true ∧
    load_weights [some ⟨1, 1, 1, false⟩] ([5, 7, 9] ++ [4]) =
      load_weights [some ⟨1, 1, 1, false⟩] [5, 7, 9] ∧
    (load_weights [some ⟨2, 2, 2, true⟩] [1, 2, 3]).2 = false := by
  have h1 := (load_weights_exhaustion [some ⟨1, 1, 1, false⟩] [5, 7, 9]).1
    (by decide)
  have h2 := (load_weights_exhaustion [some ⟨2, 2, 2, true⟩] [1, 2, 3]).2
    (by decide)
  exact ⟨h1.1, h1.2 [4], h2.1⟩

/-- A detection box in top-left/bottom-right pixel coordinates, as consumed
by `_non_max_suppression` (`do_inference` casts boxes to integers via
`astype(np.int)` before NMS). -/
structure Box where
  tlx : Int
  tly : Int
  brx : Int
  bry : Int
deriving DecidableEq

instance : Inhabited Box := ⟨⟨0, 0, 0, 0⟩⟩

/-- Box area with the `+1` inclusive-pixel convention of
`_non_max_suppression` (main.py, lines 191-194). -/
def boxArea (b : Box) : Int :=
  (b.brx - b.tlx + 1) * (b.bry - b.tly + 1)

/-- Overlap area of two boxes (main.py, lines 208-218): clamped
intersection width and height, each with the `+1` convention. -/
def interArea (a b : Box) : Int :=
  max 0 (min a.brx b.brx - max a.tlx b.tlx + 1) *
    max 0 (min a.bry b.bry - max a.tly b.tly + 1)

/-- Intersection over union (main.py, lines 218-220), with real division
idealized over the rationals. -/
def iouQ (a b : Box) : ℚ :=
  (interArea a b : ℚ) / ((boxArea a : ℚ) + (boxArea b : ℚ) - (interArea a b : ℚ))

lemma interArea_comm (a b : Box) : interArea a b = interArea b a := by
  unfold interArea
  rw [min_comm a.brx, max_comm a.tlx, min_comm a.bry, max_comm a.tly]

lemma iouQ_comm (a b : Box) : iouQ a b = iouQ b a := by
  unfold iouQ
  rw [interArea_comm]
  ring_nf

/-- Stable insertion of index `x` into an already-sorted index list: `x`
goes after every earlier index with a key less than or equal to its own,
matching the stable ascending order of `np.argsort`. -/
def insertByLe (le : Nat → Nat → Bool) (x : Nat) : List Nat → List Nat
  | [] => [x]
  | y :: ys => if le y x then y :: insertByLe le x ys else x :: y :: ys

/-- `np.argsort(prob)` (stable, ascending): indices `0..n-1` sorted by
their probability. -/
def argsortAsc (prob : List ℚ) : List Nat :=
  (List.range prob.length).foldl
    (fun acc i => insertByLe (fun a b => prob.getD a 0 ≤ prob.getD b 0) i acc) []

/-- The suppression loop of `_non_max_suppression` (main.py, lines
200-226), on the descending-probability index list: keep the front index,
drop every remaining index whose IoU with it exceeds the threshold, and
continue.  The loop consumes at least one index per iteration, so the
initial list length bounds the iteration count (`fuel`). -/
def nmsLoop (boxGet : Nat → Box) (t : ℚ) : Nat → List Nat → List Nat
  | 0, _ => []
  | _ + 1, [] => []
  | fuel + 1, c :: rest =>
      c :: nmsLoop boxGet t fuel
        (rest.filter (fun j => !(iouQ (boxGet c) (boxGet j) > t)))

/-- `_non_max_suppression(bbox_tlbr, prob, iou_thresh)` (main.py, lines
170-226): the returned list of box indices to keep. -/
def _non_max_suppression (boxes : List Box) (prob : List ℚ) (t : ℚ) :
    List Nat :=
  nmsLoop (fun i => boxes.getD i default) t
    (argsortAsc prob).reverse.length (argsortAsc prob).reverse

/-- `np.where(class_idx == class_)[0]` (main.py, line 263): the positions
holding class `cls`, in ascending order. -/
def classMask (classIdx : List Nat) (cls : Nat) : List Nat :=
  (List.range classIdx.length).filter (fun i => classIdx.getD i 0 == cls)

/-- `non_max_suppression(bbox_tlbr, class_prob, class_idx, iou_thresh)`
(main.py, lines 229-273) with a class-index array: per-class NMS.  For
each distinct class (Python iterates `set(class_idx)` in an unspecified
order; the order does not affect which index set is kept, and is modelled
by `List.dedup`), gather the indices of that class in ascending order
(`np.where`),
run `_non_max_suppression` on the gathered boxes and probabilities, and map
the kept positions back through the gather (`curr_class_mask[...]`). -/
def non_max_suppression (boxes : List Box) (prob : List ℚ)
    (classIdx : List Nat) (t : ℚ) : List Nat :=
  classIdx.dedup.flatMap (fun cls =>
    ((_non_max_suppression
        ((classMask classIdx cls).map (fun i => boxes.getD i default))
        ((classMask classIdx cls).map (fun i => prob.getD i 0)) t).map
      (fun kk => (classMask classIdx cls).getD kk 0)))

lemma insertByLe_perm (le : Nat → Nat → Bool) (x : Nat) (l : List Nat) :
    (insertByLe le x l).Perm (x :: l) := by
  induction l with
  | nil => rfl
  | cons y ys ih =>
      simp only [insertByLe]
      by_cases h : le y x
      · rw [if_pos h]
        exact (ih.cons y).trans (List.Perm.swap x y ys)
      · rw [if_neg h]

lemma foldl_insertByLe_perm (le : Nat → Nat → Bool) :
    ∀ (ys acc : List Nat),
      (ys.foldl (fun a i => insertByLe le i a) acc).Perm (acc ++ ys) := by
  intro ys
  induction ys with
  | nil => intro acc; simp
  | cons y ys ih =>
      intro acc
      simp only [List.foldl_cons]
      refine (ih (insertByLe le y acc)).trans ?_
      refine (List.Perm.append_right ys (insertByLe_perm le y acc)).trans ?_
      exact List.perm_middle.symm

lemma argsortAsc_perm (prob : List ℚ) :
    (argsortAsc prob).Perm (List.range prob.length) := by
  unfold argsortAsc
  simpa using foldl_insertByLe_perm
    (fun a b => prob.getD a 0 ≤ prob.getD b 0) (List.range prob.length) []

lemma nmsLoop_mem {boxGet : Nat → Box} {t : ℚ} :
    ∀ {fuel : Nat} {l : List Nat} {x : Nat},
      x ∈ nmsLoop boxGet t fuel l → x ∈ l := by
  intro fuel
  induction fuel with
  | zero => intro l x h; simp [nmsLoop] at h
  | succ f ih =>
      intro l x h
      cases l with
      | nil => simp [nmsLoop] at h
      | cons c rest =>
          simp only [nmsLoop, List.mem_cons] at h
          rcases h with h | h
          · exact h ▸ List.mem_cons_self c rest
          · exact List.mem_cons_of_mem c (List.mem_of_mem_filter (ih h))

lemma nmsLoop_nodup {boxGet : Nat → Box} {t : ℚ} :
    ∀ {fuel : Nat} {l : List Nat}, l.Nodup → (nmsLoop boxGet t fuel l).Nodup := by
  intro fuel
  induction fuel with
  | zero => intro l _; simp [nmsLoop]
  | succ f ih =>
      intro l hl
      cases l with
      | nil => simp [nmsLoop]
      | cons c rest =>
          simp only [nmsLoop]
          rw [List.nodup_cons] at hl ⊢
          refine ⟨fun hmem => hl.1 (List.mem_of_mem_filter (nmsLoop_mem hmem)), ?_⟩
          exact ih (hl.2.filter _)

lemma nmsLoop_pairwise {boxGet : Nat → Box} {t : ℚ} :
    ∀ {fuel : Nat} {l : List Nat},
      (nmsLoop boxGet t fuel l).Pairwise
        (fun a b => iouQ (boxGet a) (boxGet b) ≤ t) := by
  intro fuel
  induction fuel with
  | zero => intro l; simp [nmsLoop]
  | succ f ih =>
      intro l
      cases l with
      | nil => simp [nmsLoop]
      | cons c rest =>
          simp only [nmsLoop]
          rw [List.pairwise_cons]
          refine ⟨fun j hj => ?_, ih⟩
          have hjf := nmsLoop_mem hj
          rw [List.mem_filter] at hjf
          have := hjf.2
          simp only [Bool.not_eq_eq_eq_not, Bool.not_true, decide_eq_false_iff_not,
            not_lt] at this
          exact this

lemma nmsLoop_all_of_pairwise {boxGet : Nat → Box} {t : ℚ} :
    ∀ {fuel : Nat} {l : List Nat}, l.Nodup →
      (∀ a ∈ l, ∀ b ∈ l, a ≠ b → iouQ (boxGet a) (boxGet b) ≤ t) →
      l.length ≤ fuel → nmsLoop boxGet t fuel l = l := by
  intro fuel
  induction fuel with
  | zero =>
      intro l _ _ hlen
      rw [Nat.le_zero] at hlen
      rw [List.length_eq_zero] at hlen
      rw [hlen]
      rfl
  | succ f ih =>
      intro l hnd hpw hlen
      cases l with
      | nil => rfl
      | cons c rest =>
          simp only [nmsLoop]
          rw [List.nodup_cons] at hnd
          have hfilter : rest.filter
              (fun j => !(iouQ (boxGet c) (boxGet j) > t)) = rest := by
            rw [List.filter_eq_self]
            intro j hj
            have hne : c ≠ j := fun hcj => hnd.1 (hcj ▸ hj)
            have := hpw c (List.mem_cons_self c rest) j
              (List.mem_cons_of_mem c hj) hne
            simp only [Bool.not_eq_eq_eq_not, Bool.not_true,
              decide_eq_false_iff_not, not_lt]
            exact this
          rw [hfilter]
          rw [ih hnd.2
            (fun a ha b hb hab => hpw a (List.mem_cons_of_mem c ha) b
              (List.mem_cons_of_mem c hb) hab)
            (by simpa using hlen)]

lemma nms_mem {boxes : List Box} {prob : List ℚ} {t : ℚ} {k : Nat}
    (h : k ∈ _non_max_suppression boxes prob t) : k < prob.length := by
  unfold _non_max_suppression at h
  have h2 := nmsLoop_mem h
  rw [List.mem_reverse] at h2
  have h3 := (argsortAsc_perm prob).mem_iff.mp h2
  rwa [List.mem_range] at h3

lemma nms_nodup (boxes : List Box) (prob : List ℚ) (t : ℚ) :
    (_non_max_suppression boxes prob t).Nodup := by
  unfold _non_max_suppression
  apply nmsLoop_nodup
  rw [List.nodup_reverse]
  exact (argsortAsc_perm prob).nodup_iff.mpr (List.nodup_range _)

lemma iou_le_symmetric (boxes : List Box) (t : ℚ) :
    Symmetric (fun a b : Nat =>
      iouQ (boxes.getD a default) (boxes.getD b default) ≤ t) := by
  intro x y hxy
  rw [iouQ_comm]
  exact hxy

lemma nms_pairwise {boxes : List Box} {prob : List ℚ} {t : ℚ} {a b : Nat}
    (ha : a ∈ _non_max_suppression boxes prob t)
    (hb : b ∈ _non_max_suppression boxes prob t) (hab : a ≠ b) :
    iouQ (boxes.getD a default) (boxes.getD b default) ≤ t := by
  unfold _non_max_suppression at ha hb
  exact (nmsLoop_pairwise.forall (iou_le_symmetric boxes t)) ha hb hab

lemma nms_all {boxes : List Box} {prob : List ℚ} {t : ℚ}
    (h : ∀ a b, a < prob.length → b < prob.length → a ≠ b →
      iouQ (boxes.getD a default) (boxes.getD b default) ≤ t) :
    ∀ k, k ∈ _non_max_suppression boxes prob t ↔ k < prob.length := by
  have hmemiff : ∀ x, x ∈ (argsortAsc prob).reverse ↔ x < prob.length := by
    intro x
    rw [List.mem_reverse, (argsortAsc_perm prob).mem_iff, List.mem_range]
  have hnd : (argsortAsc prob).reverse.Nodup := by
    rw [List.nodup_reverse]
    exact (argsortAsc_perm prob).nodup_iff.mpr (List.nodup_range _)
  intro k
  unfold _non_max_suppression
  rw [nmsLoop_all_of_pairwise hnd
    (fun a ha b hb hab => h a b ((hmemiff a).mp ha) ((hmemiff b).mp hb) hab)
    le_rfl]
  exact hmemiff k

lemma getD_mem {α : Type} {l : List α} {n : Nat} (d : α) (h : n < l.length) :
    l.getD n d ∈ l := by
  rw [List.getD_eq_get l d h]
  exact List.get_mem l n h

lemma getD_map {α β : Type} (f : α → β) {l : List α} {n : Nat} (d : β) (dd : α)
    (h : n < l.length) : (l.map f).getD n d = f (l.getD n dd) := by
  rw [List.getD_eq_get _ _ (show n < (l.map f).length by simpa using h),
    List.getD_eq_get _ _ h, List.get_map]

lemma getD_inj {α : Type} {l : List α} (hnd : l.Nodup) {a b : Nat} {d : α}
    (ha : a < l.length) (hb : b < l.length) (h : l.getD a d = l.getD b d) :
    a = b := by
  rw [List.getD_eq_get l d ha, List.getD_eq_get l d hb] at h
  exact congrArg Fin.val (hnd.get_inj_iff.mp h)

lemma classMask_mem {classIdx : List Nat} {cls x : Nat} :
    x ∈ classMask classIdx cls ↔
      x < classIdx.length ∧ classIdx.getD x 0 = cls := by
  unfold classMask
  rw [List.mem_filter, List.mem_range]
  simp only [beq_iff_eq]

lemma classMask_nodup (classIdx : List Nat) (cls : Nat) :
    (classMask classIdx cls).Nodup :=
  (List.nodup_range _).filter _

/-- The contribution of one class to the per-class NMS result: the kept
positions of `_non_max_suppression` on the gathered class members, mapped
back to original indices through the class mask. -/
def classKeep (boxes : List Box) (prob : List ℚ) (classIdx : List Nat)
    (t : ℚ) (cls : Nat) : List Nat :=
  (_non_max_suppression
      ((classMask classIdx cls).map (fun i => boxes.getD i default))
      ((classMask classIdx cls).map (fun i => prob.getD i 0)) t).map
    (fun kk => (classMask classIdx cls).getD kk 0)

lemma nms_pc_eq (boxes : List Box) (prob : List ℚ) (classIdx : List Nat)
    (t : ℚ) :
    non_max_suppression boxes prob classIdx t =
      classIdx.dedup.flatMap (classKeep boxes prob classIdx t) := rfl

lemma classKeep_unpack {boxes : List Box} {prob : List ℚ}
    {classIdx : List Nat} {t : ℚ} {cls x : Nat}
    (h : x ∈ classKeep boxes prob classIdx t cls) :
    ∃ kk, kk < (classMask classIdx cls).length ∧
      kk ∈ _non_max_suppression
        ((classMask classIdx cls).map (fun i => boxes.getD i default))
        ((classMask classIdx cls).map (fun i => prob.getD i 0)) t ∧
      x = (classMask classIdx cls).getD kk 0 := by
  unfold classKeep at h
  rw [List.mem_map] at h
  obtain ⟨kk, hkk, rfl⟩ := h
  have hlt : kk < (classMask classIdx cls).length := by
    have := nms_mem hkk
    simpa using this
  exact ⟨kk, hlt, hkk, rfl⟩

lemma classKeep_class {boxes : List Box} {prob : List ℚ}
    {classIdx : List Nat} {t : ℚ} {cls x : Nat}
    (h : x ∈ classKeep boxes prob classIdx t cls) :
    x < classIdx.length ∧ classIdx.getD x 0 = cls := by
  obtain ⟨kk, hlt, _, rfl⟩ := classKeep_unpack h
  exact classMask_mem.mp (getD_mem 0 hlt)

lemma classKeep_nodup (boxes : List Box) (prob : List ℚ)
    (classIdx : List Nat) (t : ℚ) (cls : Nat) :
    (classKeep boxes prob classIdx t cls).Nodup := by
  unfold classKeep
  refine List.Nodup.map_on ?_ (nms_nodup _ _ _)
  intro a ha b hb hab
  have hla : a < (classMask classIdx cls).length := by simpa using nms_mem ha
  have hlb : b < (classMask classIdx cls).length := by simpa using nms_mem hb
  exact getD_inj (classMask_nodup _ _) hla hlb hab

lemma nms_pc_mem {boxes : List Box} {prob : List ℚ} {classIdx : List Nat}
    {t : ℚ} {x : Nat} (h : x ∈ non_max_suppression boxes prob classIdx t) :
    x < classIdx.length := by
  rw [nms_pc_eq, List.mem_flatMap] at h
  obtain ⟨cls, _, hx⟩ := h
  exact (classKeep_class hx).1

lemma nms_pc_nodup (boxes : List Box) (prob : List ℚ) (classIdx : List Nat)
    (t : ℚ) : (non_max_suppression boxes prob classIdx t).Nodup := by
  rw [nms_pc_eq, List.nodup_flatMap]
  refine ⟨fun cls _ => classKeep_nodup boxes prob classIdx t cls, ?_⟩
  refine (List.nodup_dedup classIdx).imp ?_
  intro c₁ c₂ hne x hx₁ hx₂
  exact hne ((classKeep_class hx₁).2.symm.trans (classKeep_class hx₂).2)

lemma nms_pc_same_class {boxes : List Box} {prob : List ℚ}
    {classIdx : List Nat} {t : ℚ} {x y : Nat}
    (hx : x ∈ non_max_suppression boxes prob classIdx t)
    (hy : y ∈ non_max_suppression boxes prob classIdx t) (hxy : x ≠ y)
    (hcls : classIdx.getD x 0 = classIdx.getD y 0) :
    iouQ (boxes.getD x default) (boxes.getD y default) ≤ t := by
  rw [nms_pc_eq, List.mem_flatMap] at hx hy
  obtain ⟨c₁, _, hx'⟩ := hx
  obtain ⟨c₂, _, hy'⟩ := hy
  have hc₁ := (classKeep_class hx').2
  have hc₂ := (classKeep_class hy').2
  have hcc : c₁ = c₂ := by rw [← hc₁, ← hc₂, hcls]
  subst hcc
  obtain ⟨kx, hlx, hkx, hxeq⟩ := classKeep_unpack hx'
  obtain ⟨ky, hly, hky, hyeq⟩ := classKeep_unpack hy'
  have hkk : kx ≠ ky := by
    intro hk
    exact hxy (by rw [hxeq, hyeq, hk])
  have hpw := nms_pairwise hkx hky hkk
  rw [getD_map (fun i => boxes.getD i default) default 0 hlx,
    getD_map (fun i => boxes.getD i default) default 0 hly] at hpw
  rw [hxeq, hyeq]
  exact hpw

/-- C7.  Per-class greedy NMS is idempotent: gather the boxes,
probabilities and class indices of the detections it keeps and run
per-class NMS again with the same threshold; the second run keeps every
one of them and removes none (its kept index set is exactly the whole
index range of the first run's output). -/
theorem non_max_suppression_idempotent (boxes : List Box) (prob : List ℚ)
    (classIdx : List Nat) (t : ℚ) :
    ∀ k, k ∈ non_max_suppression
        ((non_max_suppression boxes prob classIdx t).map
          (fun i => boxes.getD i default))
        ((non_max_suppression boxes prob classIdx t).map
          (fun i => prob.getD i 0))
        ((non_max_suppression boxes prob classIdx t).map
          (fun i => classIdx.getD i 0)) t ↔
      k < (non_max_suppression boxes prob classIdx t).length := by
  set keep := non_max_suppression boxes prob classIdx t with hkeep
  set boxes2 := keep.map (fun i => boxes.getD i default) with hboxes2
  set prob2 := keep.map (fun i => prob.getD i 0) with hprob2
  set cls2 := keep.map (fun i => classIdx.getD i 0) with hcls2
  have hlen2 : cls2.length = keep.length := by rw [hcls2, List.length_map]
  have hkeepnd : keep.Nodup := by
    rw [hkeep]; exact nms_pc_nodup boxes prob classIdx t
  intro k
  constructor
  · intro hk
    have hx := nms_pc_mem hk
    rwa [hlen2] at hx
  · intro hklt
    have hkcls : k < cls2.length := by rw [hlen2]; exact hklt
    have hcdedup : cls2.getD k 0 ∈ cls2.dedup :=
      List.mem_dedup.mpr (getD_mem 0 hkcls)
    have hkmask : k ∈ classMask cls2 (cls2.getD k 0) :=
      classMask_mem.mpr ⟨hkcls, rfl⟩
    obtain ⟨⟨kk, hkklt⟩, hkkeq⟩ := List.mem_iff_get.mp hkmask
    have hpair : ∀ a b,
        a < ((classMask cls2 (cls2.getD k 0)).map (fun i => prob2.getD i 0)).length →
        b < ((classMask cls2 (cls2.getD k 0)).map (fun i => prob2.getD i 0)).length →
        a ≠ b →
        iouQ (((classMask cls2 (cls2.getD k 0)).map
                (fun i => boxes2.getD i default)).getD a default)
             (((classMask cls2 (cls2.getD k 0)).map
                (fun i => boxes2.getD i default)).getD b default) ≤ t := by
      intro a b ha hb hab
      rw [List.length_map] at ha hb
      rw [getD_map (fun i => boxes2.getD i default) default 0 ha,
        getD_map (fun i => boxes2.getD i default) default 0 hb]
      have hmaM : (classMask cls2 (cls2.getD k 0)).getD a 0 ∈
          classMask cls2 (cls2.getD k 0) := getD_mem 0 ha
      have hmbM : (classMask cls2 (cls2.getD k 0)).getD b 0 ∈
          classMask cls2 (cls2.getD k 0) := getD_mem 0 hb
      have hma_lt : (classMask cls2 (cls2.getD k 0)).getD a 0 < keep.length := by
        rw [← hlen2]; exact (classMask_mem.mp hmaM).1
      have hmb_lt : (classMask cls2 (cls2.getD k 0)).getD b 0 < keep.length := by
        rw [← hlen2]; exact (classMask_mem.mp hmbM).1
      rw [hboxes2, getD_map (fun i => boxes.getD i default) default 0 hma_lt,
        getD_map (fun i => boxes.getD i default) default 0 hmb_lt]
      have hxaK : keep.getD ((classMask cls2 (cls2.getD k 0)).getD a 0) 0 ∈
          keep := getD_mem 0 hma_lt
      have hxbK : keep.getD ((classMask cls2 (cls2.getD k 0)).getD b 0) 0 ∈
          keep := getD_mem 0 hmb_lt
      have hmne : (classMask cls2 (cls2.getD k 0)).getD a 0 ≠
          (classMask cls2 (cls2.getD k 0)).getD b 0 :=
        fun h => hab (getD_inj (classMask_nodup _ _) ha hb h)
      have hxne : keep.getD ((classMask cls2 (cls2.getD k 0)).getD a 0) 0 ≠
          keep.getD ((classMask cls2 (cls2.getD k 0)).getD b 0) 0 :=
        fun h => hmne (getD_inj hkeepnd hma_lt hmb_lt h)
      have hclsa : classIdx.getD
          (keep.getD ((classMask cls2 (cls2.getD k 0)).getD a 0) 0) 0 =
          cls2.getD k 0 := by
        have h1 := (classMask_mem.mp hmaM).2
        rw [hcls2, getD_map (fun i => classIdx.getD i 0) 0 0 hma_lt] at h1
        exact h1
      have hclsb : classIdx.getD
          (keep.getD ((classMask cls2 (cls2.getD k 0)).getD b 0) 0) 0 =
          cls2.getD k 0 := by
        have h1 := (classMask_mem.mp hmbM).2
        rw [hcls2, getD_map (fun i => classIdx.getD i 0) 0 0 hmb_lt] at h1
        exact h1
      rw [hkeep] at hxaK hxbK
      exact nms_pc_same_class hxaK hxbK hxne (hclsa.trans hclsb.symm)
    have hkklt' : kk <
        ((classMask cls2 (cls2.getD k 0)).map (fun i => prob2.getD i 0)).length := by
      rw [List.length_map]; exact hkklt
    have hkkin := (nms_all hpair kk).mpr hkklt'
    rw [nms_pc_eq, List.mem_flatMap]
    refine ⟨cls2.getD k 0, hcdedup, ?_⟩
    unfold classKeep
    rw [List.mem_map]
    refine ⟨kk, hkkin, ?_⟩
    rw [List.getD_eq_get _ _ hkklt]
    exact hkkeq

lemma argsort_two (p0 p1 : ℚ) :
    argsortAsc [p0, p1] = if p0 ≤ p1 then [0, 1] else [1, 0] := by
  by_cases h : p0 ≤ p1 <;>
    simp [argsortAsc, insertByLe, List.range_succ, h]

lemma nms_pc_two (b0 b1 : Box) (p0 p1 : ℚ) (c : Nat) (t : ℚ) :
    non_max_suppression [b0, b1] [p0, p1] [c, c] t =
      _non_max_suppression [b0, b1] [p0, p1] t := by
  rw [nms_pc_eq]
  have hd : ([c, c] : List Nat).dedup = [c] := by
    rw [List.dedup_cons_of_mem (by simp),
      List.dedup_cons_of_not_mem (by simp), List.dedup_nil]
  rw [hd]
  have hmask : classMask [c, c] c = [0, 1] := by
    unfold classMask
    have h2 : List.range ([c, c] : List Nat).length = [0, 1] := rfl
    rw [h2]
    simp [List.filter]
  simp only [List.flatMap_cons, List.flatMap_nil, List.append_nil]
  unfold classKeep
  rw [hmask]
  have hb : ([0, 1].map fun i => ([b0, b1] : List Box).getD i default) =
      [b0, b1] := rfl
  have hp : ([0, 1].map fun i => ([p0, p1] : List ℚ).getD i 0) = [p0, p1] := rfl
  rw [hb, hp]
  have hid : ∀ kk ∈ _non_max_suppression [b0, b1] [p0, p1] t,
      ([0, 1] : List Nat).getD kk 0 = kk := by
    intro kk hkk
    have h2 := nms_mem hkk
    simp only [List.length_cons, List.length_nil] at h2
    interval_cases kk <;> rfl
  rw [List.map_congr_left hid, List.map_id']

lemma nms_two_lt (b0 b1 : Box) (p0 p1 t : ℚ) (h : p0 < p1) :
    _non_max_suppression [b0, b1] [p0, p1] t =
      if iouQ b0 b1 > t then [1] else [1, 0] := by
  unfold _non_max_suppression
  rw [argsort_two, if_pos h.le]
  have hrev : ([0, 1] : List Nat).reverse = [1, 0] := rfl
  rw [hrev]
  by_cases hio : iouQ b0 b1 > t
  · rw [if_pos hio]
    simp [nmsLoop, List.filter, iouQ_comm b1 b0, hio]
  · rw [if_neg hio]
    rw [not_lt] at hio
    simp [nmsLoop, List.filter, iouQ_comm b1 b0, not_lt.mpr hio]

lemma nms_two_gt (b0 b1 : Box) (p0 p1 t : ℚ) (h : p1 < p0) :
    _non_max_suppression [b0, b1] [p0, p1] t =
      if iouQ b0 b1 > t then [0] else [0, 1] := by
  unfold _non_max_suppression
  rw [argsort_two, if_neg (not_le.mpr h)]
  have hrev : ([1, 0] : List Nat).reverse = [0, 1] := rfl
  rw [hrev]
  by_cases hio : iouQ b0 b1 > t
  · rw [if_pos hio]
    simp [nmsLoop, List.filter, hio]
  · rw [if_neg hio]
    rw [not_lt] at hio
    simp [nmsLoop, List.filter, not_lt.mpr hio]

/-- C8.  For two candidate boxes of the same class with distinct
confidences: if their IoU (inclusive-pixel `+1` convention) strictly
exceeds the threshold, per-class NMS keeps exactly the higher-confidence
box and removes the other; if their IoU is at most the threshold, both are
kept (in descending confidence order). -/
theorem nms_two_boxes (b0 b1 : Box) (p0 p1 : ℚ) (c : Nat) (t : ℚ)
    (hne : p0 ≠ p1) :
    (iouQ b0 b1 > t →
      non_max_suppression [b0, b1] [p0, p1] [c, c] t =
        [if p1 < p0 then 0 else 1]) ∧
    (iouQ b0 b1 ≤ t →
      non_max_suppression [b0, b1] [p0, p1] [c, c] t =
        if p1 < p0 then [0, 1] else [1, 0]) := by
  rw [nms_pc_two]
  rcases lt_or_gt_of_ne hne with h | h
  · rw [nms_two_lt b0 b1 p0 p1 t h]
    constructor
    · intro hio
      rw [if_pos hio, if_neg (lt_asymm h)]
    · intro hio
      rw [if_neg (not_lt.mpr hio), if_neg (lt_asymm h)]
  · rw [nms_two_gt b0 b1 p0 p1 t h]
    constructor
    · intro hio
      rw [if_pos hio, if_pos h]
    · intro hio
      rw [if_neg (not_lt.mpr hio), if_pos h]

/-- C8 witness: two identical boxes (IoU 1) of class 7 with confidences
1/2 and 1/4 under threshold 3/10 keep only index 0; two disjoint boxes
(IoU 0) keep both. -/
theorem nms_two_boxes_witness :
    non_max_suppression [⟨0, 0, 9, 9⟩, ⟨0, 0, 9, 9⟩] [(1 : ℚ)/2, 1/4] [7, 7]
        (3/10) = [0] ∧
    non_max_suppression [⟨0, 0, 9, 9⟩, ⟨20, 20, 29, 29⟩] [(1 : ℚ)/2, 1/4]
        [7, 7] (3/10) = [0, 1] := by
  constructor
  · have h := (nms_two_boxes ⟨0, 0, 9, 9⟩ ⟨0, 0, 9, 9⟩ ((1 : ℚ)/2) (1/4) 7
      (3/10) (by norm_num)).1
      (by norm_num [iouQ, interArea, boxArea])
    rw [h, if_pos (by norm_num)]
  · have h := (nms_two_boxes ⟨0, 0, 9, 9⟩ ⟨20, 20, 29, 29⟩ ((1 : ℚ)/2) (1/4) 7
      (3/10) (by norm_num)).2
      (by norm_num [iouQ, interArea, boxArea])
    rw [h, if_pos (by norm_num)]
